import Mathlib

/-!
Verification of the bug-commit attribution engine (package `agent`):
`AnalyzeSingleCommit`'s verdict extraction, `splitJSONPairs`, and
`AnalyzeBugInCommits`'s fan-out / selection logic.

Strings are modelled as `List Char` (the Go code indexes bytes; on the
ASCII payloads at issue byte and rune indexing coincide).  Go's `int`
is modelled as `Int`.
-/

namespace Jarvis

/-- Whitespace as `unicode.IsSpace` sees it in the Latin-1 range
(`strings.TrimSpace` trims exactly these at either end). -/
def isSpaceChar (c : Char) : Bool :=
  c = ' ' || c = '\t' || c = '\n' || c = '\x0b' || c = '\x0c' || c = '\r' ||
  c = '\x85' || c = '\xA0'

/-- Go `strings.TrimSpace`. -/
def trimSpace (l : List Char) : List Char :=
  ((l.dropWhile isSpaceChar).reverse.dropWhile isSpaceChar).reverse

/-- Go `strings.Trim(s, "\"")`: strip all leading and trailing quote chars. -/
def trimQuotes (l : List Char) : List Char :=
  ((l.dropWhile (fun c => c = '"')).reverse.dropWhile (fun c => c = '"')).reverse

/-- Go `strings.Trim(s, "{}")`: strip all leading and trailing brace chars. -/
def stripBraces (l : List Char) : List Char :=
  ((l.dropWhile (fun c => c = '{' || c = '}')).reverse.dropWhile
      (fun c => c = '{' || c = '}')).reverse

/-- Go `strings.Index(s, pat)`: index of the first occurrence of `pat`. -/
def indexOfSub (pat : List Char) : List Char → Option Nat
  | [] => if pat.isPrefixOf [] then some 0 else none
  | c :: t =>
    if pat.isPrefixOf (c :: t) then some 0
    else (indexOfSub pat t).map (· + 1)

/-- Go `strings.Contains`. -/
def containsSub (s pat : List Char) : Bool :=
  (indexOfSub pat s).isSome

/-- Go `strings.LastIndex(s, c)` for a single-character pattern. -/
def lastIndexOfChar (c : Char) (l : List Char) : Option Nat :=
  (List.findIdx? (fun x => x = c) l.reverse).map (fun i => l.length - 1 - i)

/-- `CommitAnalysis` struct of the `agent` package. -/
structure CommitAnalysis where
  commitHash : List Char
  commitMsg : List Char
  author : List Char
  date : List Char
  explanation : List Char
  isLikely : Bool
  confidence : Int
deriving DecidableEq

/-- The zero value `&CommitAnalysis{}` the parser starts from. -/
def CommitAnalysis.init : CommitAnalysis :=
  ⟨[], [], [], [], [], false, 0⟩

/-- `CommitAnalysisResult` struct: one outcome per dispatched commit. -/
structure CommitAnalysisResult where
  commit : List Char
  analysis : Option CommitAnalysis
  error : Option (List Char)
deriving DecidableEq

/-- Result of one analysis task as the caller sees it. -/
inductive TaskResult where
  | failure (msg : List Char)
  | verdict (a : CommitAnalysis)
deriving DecidableEq

/-- Result of `AnalyzeBugInCommits`.  `panic` marks the (dead) branch where
Go would dereference a nil `bestMatch`. -/
inductive AnalyzeOutcome where
  | ok (verdict : CommitAnalysis)
  | error (msg : List Char)
  | panic
deriving DecidableEq

def noCommitsMsg : List Char := "no commits could be analyzed".toList

def extractErrMsg : List Char := "Claude did not return expected JSON response".toList

/-- The verdict-collection loop of `AnalyzeBugInCommits`: results with a
non-nil error are skipped, non-nil analyses are appended in arrival order. -/
def collectAnalyses (results : List CommitAnalysisResult) : List CommitAnalysis :=
  results.foldl
    (fun acc r =>
      match r.error with
      | some _ => acc
      | none =>
        match r.analysis with
        | some a => acc ++ [a]
        | none => acc)
    []

/-- One step of the fallback loop:
`if bestMatch == nil || analysis.Confidence > bestMatch.Confidence`. -/
def updateBest (best : Option CommitAnalysis) (a : CommitAnalysis) :
    Option CommitAnalysis :=
  match best with
  | none => some a
  | some b => if a.confidence > b.confidence then some a else some b

/-- One step of the likely-only loop: the same update guarded by `IsLikely`. -/
def updateLikelyBest (best : Option CommitAnalysis) (a : CommitAnalysis) :
    Option CommitAnalysis :=
  if a.isLikely then updateBest best a else best

/-- Selection phase of `AnalyzeBugInCommits`, applied to the analyses
collected in arrival (drain) order. -/
def analyzeBugInCommitsFromResults (results : List CommitAnalysisResult) :
    AnalyzeOutcome :=
  let analyses := collectAnalyses results
  if analyses = [] then .error noCommitsMsg
  else
    match analyses.foldl updateLikelyBest none with
    | some b => .ok b
    | none =>
      match analyses.foldl updateBest none with
      | some b => .ok b
      | none => .panic

/-- Running maximum with strict comparison, seeded by a first element:
`foldl updateBest (some b)` in first-projection form. -/
def foldBest (b : CommitAnalysis) (l : List CommitAnalysis) : CommitAnalysis :=
  l.foldl (fun x a => if a.confidence > x.confidence then a else x) b

/-- A bare verdict carrying only the likelihood flag and confidence. -/
def mkVerdict (lik : Bool) (conf : Int) : CommitAnalysis :=
  ⟨[], [], [], [], [], lik, conf⟩

/-- A successful task outcome. -/
def okResult (a : CommitAnalysis) : CommitAnalysisResult :=
  ⟨[], some a, none⟩

/-- A failed task outcome. -/
def errResult : CommitAnalysisResult :=
  ⟨[], none, some "analysis error".toList⟩

def fenceJson : List Char := "\x60\x60\x60json".toList

def fence3 : List Char := "\x60\x60\x60".toList

/-- Strategies 2 and 3 of the payload search: plain `{...}` object, else the
span from the first `{` to the last `}` (both re-checked after trimming). -/
def locateBrace (text : List Char) : List Char :=
  if text.head? = some '{' ∧ text.getLast? = some '}' then text
  else
    match List.findIdx? (fun c => c = '{') text, lastIndexOfChar '}' text with
    | some s, some e =>
      if s < e then
        let pot := trimSpace ((text.drop s).take (e + 1 - s))
        if pot.head? = some '{' ∧ pot.getLast? = some '}' then pot else []
      else []
    | some _, none => []
    | none, _ => []

/-- The JSON-location logic of `AnalyzeSingleCommit` on one text block:
fenced `json` block first (requiring a strictly later closing fence),
then `locateBrace`.  The empty list encodes `jsonResponse == ""`. -/
def locatePayload (raw : List Char) : List Char :=
  let text := trimSpace raw
  match indexOfSub fenceJson text with
  | some start =>
    match indexOfSub fence3 (text.drop (start + 7)) with
    | some e =>
      if 0 < e then trimSpace ((text.drop (start + 7)).take e)
      else locateBrace text
    | none => locateBrace text
  | none => locateBrace text

/-- Go `fmt.Sscanf(value, "%d", ...)`: skip leading space, optional sign,
then a nonempty maximal digit prefix; anything else fails. -/
def digitsToNat (ds : List Char) : Nat :=
  ds.foldl (fun a c => 10 * a + (c.toNat - '0'.toNat)) 0

def scanInt (s : List Char) : Option Int :=
  let s1 := s.dropWhile isSpaceChar
  let s2 := if s1.head? = some '-' ∨ s1.head? = some '+' then s1.tail else s1
  let ds := s2.takeWhile Char.isDigit
  if ds = [] then none
  else if s1.head? = some '-' then some (-(digitsToNat ds : Int))
  else some ((digitsToNat ds : Int))

/-- `strings.SplitN(pair, ":", 2)`: key before the first colon, value after;
`none` when the pair has no colon (the parser skips it). -/
def splitFirstColon (pair : List Char) : Option (List Char × List Char) :=
  match List.findIdx? (fun c => c = ':') pair with
  | none => none
  | some i => some (pair.take i, pair.drop (i + 1))

def cleanKey (k : List Char) : List Char :=
  trimQuotes (trimSpace k)

def cleanValue (v : List Char) : List Char :=
  let v1 := trimSpace v
  let v2 := if v1.getLast? = some ',' then v1.dropLast else v1
  trimQuotes v2

/-- One iteration of the key-dispatch `switch` of `AnalyzeSingleCommit`. -/
def applyPair (a : CommitAnalysis) (pair : List Char) : CommitAnalysis :=
  match splitFirstColon pair with
  | none => a
  | some (k, v) =>
    let key := cleanKey k
    let value := cleanValue v
    if key = "commit_hash".toList then { a with commitHash := value }
    else if key = "commit_message".toList then { a with commitMsg := value }
    else if key = "author".toList then { a with author := value }
    else if key = "date".toList then { a with date := value }
    else if key = "explanation".toList then { a with explanation := value }
    else if key = "is_likely".toList then
      { a with isLikely := value == "true".toList }
    else if key = "confidence".toList then
      match scanInt value with
      | some n => { a with confidence := n }
      | none => a
    else a

def recognizedKeys : List (List Char) :=
  ["commit_hash".toList, "commit_message".toList, "author".toList,
    "date".toList, "explanation".toList, "is_likely".toList,
    "confidence".toList]

/-- Scanner state of `splitJSONPairs`: the previously read character (the
escape check reads `jsonContent[i-1]`), the in-quotes flag and the
brace/bracket nesting depth. -/
structure ScanSt where
  prev : Option Char
  inQ : Bool
  depth : Int
deriving DecidableEq

def initScan : ScanSt := ⟨none, false, 0⟩

def scanStep (st : ScanSt) (c : Char) : ScanSt :=
  if c = '"' then
    ⟨some c, if st.prev ≠ some '\\' then !st.inQ else st.inQ, st.depth⟩
  else if c = '{' ∨ c = '[' then
    ⟨some c, st.inQ, if st.inQ then st.depth else st.depth + 1⟩
  else if c = '}' ∨ c = ']' then
    ⟨some c, st.inQ, if st.inQ then st.depth else st.depth - 1⟩
  else ⟨some c, st.inQ, st.depth⟩

/-- Full loop state of `splitJSONPairs`: scanner plus `current` and `pairs`. -/
structure SplitSt where
  scan : ScanSt
  cur : List Char
  pairs : List (List Char)
deriving DecidableEq

def splitStep (st : SplitSt) (c : Char) : SplitSt :=
  if c = ',' ∧ st.scan.inQ = false ∧ st.scan.depth = 0 then
    ⟨scanStep st.scan c, [], st.pairs ++ [trimSpace st.cur]⟩
  else
    ⟨scanStep st.scan c, st.cur ++ [c], st.pairs⟩

/-- `splitJSONPairs`: split at commas outside quotes at depth zero; each
piece is `TrimSpace`d; a nonempty tail piece is appended at the end. -/
def splitJSONPairs (s : List Char) : List (List Char) :=
  let st := s.foldl splitStep ⟨initScan, [], []⟩
  st.pairs ++ (if st.cur = [] then [] else [trimSpace st.cur])

/-- The JSON-ish payload parser of `AnalyzeSingleCommit`. -/
def parseAnalysis (payload : List Char) : CommitAnalysis :=
  (splitJSONPairs (stripBraces (trimSpace payload))).foldl applyPair
    CommitAnalysis.init

/-- The per-task outcome for one oracle response text: extraction failure
when no payload was located, otherwise the permissively parsed verdict. -/
def analyzeResponseText (raw : List Char) : TaskResult :=
  if locatePayload raw = [] then .failure extractErrMsg
  else .verdict (parseAnalysis (locatePayload raw))

/-- First-success chaining of payload-location strategies. -/
def firstSome (a b : Option (List Char)) : Option (List Char) :=
  match a with
  | some x => some x
  | none => b

/-- Strategy 1 as the spec words it: content of the first `json`-labeled
fenced block. -/
def strat1 (text : List Char) : Option (List Char) :=
  match indexOfSub fenceJson text with
  | some start =>
    match indexOfSub fence3 (text.drop (start + 7)) with
    | some e =>
      if 0 < e then some (trimSpace ((text.drop (start + 7)).take e))
      else none
    | none => none
  | none => none

/-- Strategy 2 as the claim words it: the trimmed text when fully
bracketed, `{...}` for an object OR `[...]` for an array. -/
def strat2Claimed (text : List Char) : Option (List Char) :=
  if (text.head? = some '{' ∧ text.getLast? = some '}') ∨
      (text.head? = some '[' ∧ text.getLast? = some ']') then some text
  else none

/-- Strategy 2 as the code has it: objects only. -/
def strat2Obj (text : List Char) : Option (List Char) :=
  if text.head? = some '{' ∧ text.getLast? = some '}' then some text
  else none

/-- Strategy 3: span from the first `{` to the last `}`. -/
def strat3 (text : List Char) : Option (List Char) :=
  match List.findIdx? (fun c => c = '{') text, lastIndexOfChar '}' text with
  | some s, some e =>
    if s < e then
      let pot := trimSpace ((text.drop s).take (e + 1 - s))
      if pot.head? = some '{' ∧ pot.getLast? = some '}' then some pot
      else none
    else none
  | some _, none => none
  | none, _ => none

/-- The extraction algorithm exactly as the claim states it (arrays
accepted in strategy 2). -/
def locateClaimed (raw : List Char) : Option (List Char) :=
  let text := trimSpace raw
  firstSome (strat1 text) (firstSome (strat2Claimed text) (strat3 text))

/-- The amended extraction algorithm: strategy 2 accepts only `{...}`. -/
def locateAmended (raw : List Char) : Option (List Char) :=
  let text := trimSpace raw
  firstSome (strat1 text) (firstSome (strat2Obj text) (strat3 text))

/-- An oracle reply whose fenced block holds prose with no braces. -/
def fencedProse : List Char := "\x60\x60\x60json\nok\n\x60\x60\x60".toList

/-- The scanner of `splitJSONPairs` run over a chunk of input. -/
def scanList (st : ScanSt) (l : List Char) : ScanSt :=
  l.foldl scanStep st

/-- No character of the chunk is a comma read outside quotes at depth 0. -/
def noTopComma (st : ScanSt) : List Char → Bool
  | [] => true
  | c :: rest =>
    if c = ',' ∧ st.inQ = false ∧ st.depth = 0 then false
    else noTopComma (scanStep st c) rest

/-- A chunk is comma-safe: it contains no top-level comma and leaves the
scanner outside quotes at depth 0. -/
def chunkOK (st : ScanSt) (ch : List Char) : Bool :=
  noTopComma st ch && !(scanList st ch).inQ && ((scanList st ch).depth == 0)

/-- Join chunks with a top-level `", "` separator. -/
def joinPairs : List (List Char) → List Char
  | [] => []
  | [ch] => ch
  | ch :: rest => ch ++ ',' :: ' ' :: joinPairs rest

/-- A pair whose quoted value contains a comma. -/
def chunkExplanation : List Char :=
  "\"explanation\": \"fixed bug, added test\"".toList

/-- A pair whose nested object and array contain commas. -/
def chunkNested : List Char :=
  "\"data\": \x7b\"x\": 1, \"y\": [2, 3]\x7d".toList

/-- A plain quoted pair. -/
def chunkAuthor : List Char := "\"author\": \"jane\"".toList

/-- State of the fan-out coordinator: commits whose task has not yet sent
its outcome, the buffered channel contents in FIFO order, and the outcomes
drained so far in arrival order. -/
structure CoordState where
  pending : List (List Char)
  buffer : List CommitAnalysisResult
  drained : List CommitAnalysisResult
deriving DecidableEq

/-- Interleaving semantics of `AnalyzeBugInCommits`'s fan-out: any pending
task may complete (appending its single outcome to the channel, in any
order), and the coordinator drains the channel head.  The channel is
buffered to the candidate count, so a completing task never blocks. -/
inductive CoordStep (oracle : List Char → CommitAnalysisResult) :
    CoordState → CoordState → Prop
  | complete (pre post : List (List Char)) (buf dr : List CommitAnalysisResult)
      (c : List Char) :
      CoordStep oracle ⟨pre ++ c :: post, buf, dr⟩
        ⟨pre ++ post, buf ++ [oracle c], dr⟩
  | drain (pend : List (List Char)) (r : CommitAnalysisResult)
      (buf dr : List CommitAnalysisResult) :
      CoordStep oracle ⟨pend, r :: buf, dr⟩ ⟨pend, buf, dr ++ [r]⟩

/-- The multiset of outcomes in flight or already observed. -/
def coordMeasure (oracle : List Char → CommitAnalysisResult) (s : CoordState) :
    Multiset CommitAnalysisResult :=
  (s.drained : Multiset CommitAnalysisResult) +
    (s.buffer : Multiset CommitAnalysisResult) +
    ((s.pending.map oracle : List CommitAnalysisResult) :
      Multiset CommitAnalysisResult)

/-- A payload carrying an out-of-range confidence. -/
def overConfidencePayload : List Char :=
  "\x7b\"is_likely\": true, \"confidence\": 150\x7d".toList

theorem foldl_updateBest_some (l : List CommitAnalysis) :
    ∀ b : CommitAnalysis, l.foldl updateBest (some b) = some (foldBest b l) := by
  induction l with
  | nil => intro b; rfl
  | cons a t ih =>
    intro b
    simp only [List.foldl_cons, updateBest, foldBest]
    by_cases h : a.confidence > b.confidence
    · simp [h, ih a, foldBest]
    · simp [h, ih b, foldBest]

theorem foldl_updateBest_cons (a : CommitAnalysis) (t : List CommitAnalysis) :
    (a :: t).foldl updateBest none = some (foldBest a t) := by
  simpa using foldl_updateBest_some t a

theorem foldl_updateLikelyBest_eq (l : List CommitAnalysis) :
    ∀ acc : Option CommitAnalysis,
      l.foldl updateLikelyBest acc =
        (l.filter (fun a => a.isLikely)).foldl updateBest acc := by
  induction l with
  | nil => intro acc; rfl
  | cons a t ih =>
    intro acc
    by_cases h : a.isLikely
    · simp [List.filter_cons, h, updateLikelyBest, ih]
    · simp [List.filter_cons, h, updateLikelyBest, ih]

/-- `foldBest` dominates every element of `b :: l`. -/
theorem foldBest_max (l : List CommitAnalysis) :
    ∀ b x, x ∈ b :: l → x.confidence ≤ (foldBest b l).confidence := by
  induction l with
  | nil =>
    intro b x hx
    rcases List.mem_singleton.mp hx with rfl
    exact le_refl _
  | cons a t ih =>
    intro b x hx
    have hstep : foldBest b (a :: t) =
        foldBest (if a.confidence > b.confidence then a else b) t := by
      simp [foldBest]
    have htop := ih (if a.confidence > b.confidence then a else b) _
      (List.mem_cons_self _ _)
    have hbc : b.confidence ≤
        (if a.confidence > b.confidence then a else b).confidence := by
      by_cases h : a.confidence > b.confidence
      · simpa [h] using le_of_lt h
      · simp [h]
    have hac : a.confidence ≤
        (if a.confidence > b.confidence then a else b).confidence := by
      by_cases h : a.confidence > b.confidence
      · simp [h]
      · simpa [h] using not_lt.mp h
    rw [hstep]
    rcases List.mem_cons.mp hx with rfl | hx
    · exact le_trans hbc htop
    rcases List.mem_cons.mp hx with rfl | hx
    · exact le_trans hac htop
    · exact ih _ x (List.mem_cons_of_mem _ hx)

/-- `foldBest b l` is the first maximum of `b :: l`: everything strictly
before it is strictly smaller, everything after it is no larger. -/
theorem foldBest_first_max (l : List CommitAnalysis) :
    ∀ b, ∃ l₁ l₂, b :: l = l₁ ++ foldBest b l :: l₂ ∧
      (∀ x ∈ l₁, x.confidence < (foldBest b l).confidence) ∧
      (∀ x ∈ l₂, x.confidence ≤ (foldBest b l).confidence) := by
  induction l with
  | nil =>
    intro b
    exact ⟨[], [], by simp [foldBest], by simp, by simp⟩
  | cons a t ih =>
    intro b
    have hstep : foldBest b (a :: t) =
        foldBest (if a.confidence > b.confidence then a else b) t := by
      simp [foldBest]
    by_cases h : a.confidence > b.confidence
    · -- the head b is strictly dominated by a, hence by the final best
      obtain ⟨t₁, t₂, hdec, hlt, hle⟩ := ih a
      have hmax : a.confidence ≤ (foldBest a t).confidence :=
        foldBest_max t a a (List.mem_cons_self _ _)
      rw [hstep, if_pos h]
      refine ⟨b :: t₁, t₂, ?_, ?_, hle⟩
      · rw [List.cons_append, ← hdec]
      · intro x hx
        rcases List.mem_cons.mp hx with rfl | hx
        · exact lt_of_lt_of_le h hmax
        · exact hlt x hx
    · have ha : a.confidence ≤ b.confidence := not_lt.mp h
      obtain ⟨t₁, t₂, hdec, hlt, hle⟩ := ih b
      rw [hstep, if_neg h]
      cases t₁ with
      | nil =>
        simp only [List.nil_append] at hdec
        injection hdec with h1 h2
        refine ⟨[], a :: t, by rw [List.nil_append, ← h1], by simp, ?_⟩
        intro x hx
        rcases List.mem_cons.mp hx with rfl | hx
        · rw [← h1]; exact ha
        · exact hle x (h2 ▸ hx)
      | cons y t₁' =>
        simp only [List.cons_append] at hdec
        injection hdec with h1 h2
        subst h1
        have hblt : b.confidence < (foldBest b t).confidence :=
          hlt b (List.mem_cons_self _ _)
        refine ⟨b :: a :: t₁', t₂, ?_, ?_, hle⟩
        · simp only [List.cons_append]
          rw [← h2]
        · intro x hx
          rcases List.mem_cons.mp hx with rfl | hx
          · exact hblt
          rcases List.mem_cons.mp hx with rfl | hx
          · exact lt_of_le_of_lt ha hblt
          · exact hlt x (List.mem_cons_of_mem _ hx)

theorem foldBest_mem (l : List CommitAnalysis) (b : CommitAnalysis) :
    foldBest b l ∈ b :: l := by
  obtain ⟨l₁, l₂, hdec, _, _⟩ := foldBest_first_max l b
  rw [hdec]
  exact List.mem_append_right _ (List.mem_cons_self _ _)

/-- For a nonempty collection the selection phase always produces a verdict
(and in particular never reaches the nil-dereference branch). -/
theorem analyze_ok_of_ne (results : List CommitAnalysisResult)
    (hne : collectAnalyses results ≠ []) :
    ∃ b, analyzeBugInCommitsFromResults results = .ok b := by
  cases hca : collectAnalyses results with
  | nil => exact absurd hca hne
  | cons a rest =>
    cases hfe : (collectAnalyses results).filter (fun x => x.isLikely) with
    | nil =>
      refine ⟨foldBest a rest, ?_⟩
      simp only [analyzeBugInCommitsFromResults]
      rw [if_neg hne, foldl_updateLikelyBest_eq, hfe]
      simp only [List.foldl_nil]
      rw [hca, foldl_updateBest_cons]
    | cons hd tl =>
      refine ⟨foldBest hd tl, ?_⟩
      simp only [analyzeBugInCommitsFromResults]
      rw [if_neg hne, foldl_updateLikelyBest_eq, hfe, foldl_updateBest_cons]

/-- C1: whenever some collected verdict is likely, `AnalyzeBugInCommits`
returns a likely verdict of maximal confidence among the likely ones, and
on ties the one that arrived (was drained) first: every likely verdict
before the winner is strictly below it, every one after is no higher. -/
theorem analyzeBug_likely_first_max (results : List CommitAnalysisResult)
    (h : ∃ a ∈ collectAnalyses results, a.isLikely = true) :
    ∃ b l₁ l₂,
      analyzeBugInCommitsFromResults results = .ok b ∧
      b.isLikely = true ∧
      (collectAnalyses results).filter (fun x => x.isLikely) = l₁ ++ b :: l₂ ∧
      (∀ x ∈ l₁, x.confidence < b.confidence) ∧
      (∀ x ∈ l₂, x.confidence ≤ b.confidence) := by
  obtain ⟨a, ha, hlik⟩ := h
  have hfil : a ∈ (collectAnalyses results).filter (fun x => x.isLikely) :=
    List.mem_filter.mpr ⟨ha, by simp [hlik]⟩
  cases hfe : (collectAnalyses results).filter (fun x => x.isLikely) with
  | nil => rw [hfe] at hfil; cases hfil
  | cons hd tl =>
    have hne : collectAnalyses results ≠ [] := by
      intro h0
      rw [h0] at hfe
      simp at hfe
    have heq : analyzeBugInCommitsFromResults results = .ok (foldBest hd tl) := by
      simp only [analyzeBugInCommitsFromResults]
      rw [if_neg hne, foldl_updateLikelyBest_eq, hfe, foldl_updateBest_cons]
    obtain ⟨l₁, l₂, hdec, hlt, hle⟩ := foldBest_first_max tl hd
    have hmem : foldBest hd tl ∈ hd :: tl := by
      rw [hdec]
      exact List.mem_append_right _ (List.mem_cons_self _ _)
    have hmemf : foldBest hd tl ∈
        (collectAnalyses results).filter (fun x => x.isLikely) := by
      rw [hfe]; exact hmem
    have hblik : (foldBest hd tl).isLikely = true := by
      simpa using (List.mem_filter.mp hmemf).2
    exact ⟨foldBest hd tl, l₁, l₂, heq, hblik, hdec, hlt, hle⟩

/-- C2: when no collected verdict is likely but at least one exists, the
fallback returns a collected verdict of maximal confidence over all of
them, ignoring the likelihood flag. -/
theorem analyzeBug_fallback_max (results : List CommitAnalysisResult)
    (hne : collectAnalyses results ≠ [])
    (hnl : ∀ a ∈ collectAnalyses results, a.isLikely = false) :
    ∃ b,
      analyzeBugInCommitsFromResults results = .ok b ∧
      b ∈ collectAnalyses results ∧
      ∀ x ∈ collectAnalyses results, x.confidence ≤ b.confidence := by
  cases hca : collectAnalyses results with
  | nil => exact absurd hca hne
  | cons a rest =>
    have hfe : (collectAnalyses results).filter (fun x => x.isLikely) = [] := by
      rw [List.filter_eq_nil_iff]
      intro x hx
      simp [hnl x hx]
    have heq : analyzeBugInCommitsFromResults results = .ok (foldBest a rest) := by
      simp only [analyzeBugInCommitsFromResults]
      rw [if_neg hne, foldl_updateLikelyBest_eq, hfe]
      simp only [List.foldl_nil]
      rw [hca, foldl_updateBest_cons]
    refine ⟨foldBest a rest, heq, ?_, ?_⟩
    · exact foldBest_mem rest a
    · intro x hx
      exact foldBest_max rest a x hx

/-- C10: in the fallback tier the same first-arrival tie-break applies:
the winner is the first collected verdict attaining the maximal
confidence (strict greater-than update). -/
theorem analyzeBug_fallback_first_max (results : List CommitAnalysisResult)
    (hne : collectAnalyses results ≠ [])
    (hnl : ∀ a ∈ collectAnalyses results, a.isLikely = false) :
    ∃ b l₁ l₂,
      analyzeBugInCommitsFromResults results = .ok b ∧
      collectAnalyses results = l₁ ++ b :: l₂ ∧
      (∀ x ∈ l₁, x.confidence < b.confidence) ∧
      (∀ x ∈ l₂, x.confidence ≤ b.confidence) := by
  cases hca : collectAnalyses results with
  | nil => exact absurd hca hne
  | cons a rest =>
    have hfe : (collectAnalyses results).filter (fun x => x.isLikely) = [] := by
      rw [List.filter_eq_nil_iff]
      intro x hx
      simp [hnl x hx]
    have heq : analyzeBugInCommitsFromResults results = .ok (foldBest a rest) := by
      simp only [analyzeBugInCommitsFromResults]
      rw [if_neg hne, foldl_updateLikelyBest_eq, hfe]
      simp only [List.foldl_nil]
      rw [hca, foldl_updateBest_cons]
    obtain ⟨l₁, l₂, hdec, hlt, hle⟩ := foldBest_first_max rest a
    exact ⟨foldBest a rest, l₁, l₂, heq, hdec, hlt, hle⟩

/-- C3: `AnalyzeBugInCommits` returns the aggregate "no commits could be
analyzed" error exactly when zero verdicts were collected, and otherwise a
verdict (never the nil-dereference branch, never a zero-value verdict in
the error case). -/
theorem analyzeBug_error_iff_empty (results : List CommitAnalysisResult) :
    (analyzeBugInCommitsFromResults results = .error noCommitsMsg ↔
      collectAnalyses results = []) ∧
    (collectAnalyses results ≠ [] →
      ∃ b, analyzeBugInCommitsFromResults results = .ok b) := by
  by_cases hne : collectAnalyses results = []
  · constructor
    · constructor
      · intro _; exact hne
      · intro _
        simp [analyzeBugInCommitsFromResults, hne]
    · intro h; exact absurd hne h
  · obtain ⟨b, hb⟩ := analyze_ok_of_ne results hne
    constructor
    · constructor
      · intro h
        rw [hb] at h
        cases h
      · intro h; exact absurd h hne
    · intro _; exact ⟨b, hb⟩

/-- Witness for C1 at a concrete arrival order: a failed task, a likely
verdict at confidence 70, a non-likely one at 90 and a likely tie at 70. -/
theorem analyzeBug_likely_first_max_witness :
    (∃ a ∈ collectAnalyses
        [errResult, okResult (mkVerdict true 70), okResult (mkVerdict false 90),
          okResult (mkVerdict true 70)], a.isLikely = true) ∧
    (∃ b l₁ l₂,
      analyzeBugInCommitsFromResults
          [errResult, okResult (mkVerdict true 70), okResult (mkVerdict false 90),
            okResult (mkVerdict true 70)] = .ok b ∧
      b.isLikely = true ∧
      (collectAnalyses
          [errResult, okResult (mkVerdict true 70), okResult (mkVerdict false 90),
            okResult (mkVerdict true 70)]).filter (fun x => x.isLikely) =
        l₁ ++ b :: l₂ ∧
      (∀ x ∈ l₁, x.confidence < b.confidence) ∧
      (∀ x ∈ l₂, x.confidence ≤ b.confidence)) :=
  ⟨by decide,
    analyzeBug_likely_first_max
      [errResult, okResult (mkVerdict true 70), okResult (mkVerdict false 90),
        okResult (mkVerdict true 70)] (by decide)⟩

/-- Witness for C2: no likely verdict; confidences 30 and 55. -/
theorem analyzeBug_fallback_max_witness :
    (collectAnalyses
        [okResult (mkVerdict false 30), okResult (mkVerdict false 55)] ≠ []) ∧
    (∀ a ∈ collectAnalyses
        [okResult (mkVerdict false 30), okResult (mkVerdict false 55)],
      a.isLikely = false) ∧
    (∃ b,
      analyzeBugInCommitsFromResults
          [okResult (mkVerdict false 30), okResult (mkVerdict false 55)] = .ok b ∧
      b ∈ collectAnalyses
          [okResult (mkVerdict false 30), okResult (mkVerdict false 55)] ∧
      ∀ x ∈ collectAnalyses
          [okResult (mkVerdict false 30), okResult (mkVerdict false 55)],
        x.confidence ≤ b.confidence) :=
  ⟨by decide, by decide,
    analyzeBug_fallback_max
      [okResult (mkVerdict false 30), okResult (mkVerdict false 55)]
      (by decide) (by decide)⟩

/-- Witness for C10: fallback tie at confidence 55 between two non-likely
verdicts; the decomposition pins the first arrival as winner. -/
theorem analyzeBug_fallback_first_max_witness :
    (collectAnalyses
        [okResult (mkVerdict false 55), okResult (mkVerdict false 55)] ≠ []) ∧
    (∀ a ∈ collectAnalyses
        [okResult (mkVerdict false 55), okResult (mkVerdict false 55)],
      a.isLikely = false) ∧
    (∃ b l₁ l₂,
      analyzeBugInCommitsFromResults
          [okResult (mkVerdict false 55), okResult (mkVerdict false 55)] = .ok b ∧
      collectAnalyses
          [okResult (mkVerdict false 55), okResult (mkVerdict false 55)] =
        l₁ ++ b :: l₂ ∧
      (∀ x ∈ l₁, x.confidence < b.confidence) ∧
      (∀ x ∈ l₂, x.confidence ≤ b.confidence)) :=
  ⟨by decide, by decide,
    analyzeBug_fallback_first_max
      [okResult (mkVerdict false 55), okResult (mkVerdict false 55)]
      (by decide) (by decide)⟩

theorem firstSome_none (b : Option (List Char)) : firstSome none b = b := rfl

theorem firstSome_some (x : List Char) (b : Option (List Char)) :
    firstSome (some x) b = some x := rfl

theorem locateBrace_eq_strats (text : List Char) :
    locateBrace text = (firstSome (strat2Obj text) (strat3 text)).getD [] := by
  unfold locateBrace strat2Obj strat3 firstSome
  by_cases h : text.head? = some '{' ∧ text.getLast? = some '}'
  · simp [h]
  · rw [if_neg h, if_neg h]
    cases List.findIdx? (fun c => c = '{') text with
    | none => rfl
    | some s =>
      cases lastIndexOfChar '}' text with
      | none => rfl
      | some e =>
        by_cases h3 : s < e
        · simp only [if_pos h3]
          by_cases h4 : (trimSpace ((text.drop s).take (e + 1 - s))).head? =
              some '{' ∧
              (trimSpace ((text.drop s).take (e + 1 - s))).getLast? = some '}'
          · simp [h4]
          · simp [h4]
        · simp [if_neg h3]

/-- C5 (amended): the payload search is `locateAmended`: the fenced-`json`
strategy, else the whole trimmed text when it is a `{...}` object, else
the first-`{`-to-last-`}` span; first success wins (the empty result
encodes "not found"). -/
theorem locatePayload_strategy_order (raw : List Char) :
    locatePayload raw = (locateAmended raw).getD [] := by
  simp only [locatePayload, locateAmended, strat1]
  cases indexOfSub fenceJson (trimSpace raw) with
  | none =>
    dsimp only
    rw [firstSome_none]
    exact locateBrace_eq_strats _
  | some start =>
    dsimp only
    cases indexOfSub fence3 ((trimSpace raw).drop (start + 7)) with
    | none =>
      dsimp only
      rw [firstSome_none]
      exact locateBrace_eq_strats _
    | some e =>
      dsimp only
      by_cases h : 0 < e
      · rw [if_pos h, if_pos h, firstSome_some]; rfl
      · rw [if_neg h, if_neg h, firstSome_none]; exact locateBrace_eq_strats _

/-- C5 counterexample: on the fully bracketed array text `[1, 2]` the
claimed algorithm (strategy 2 accepting arrays) finds a payload, but the
code finds none. -/
theorem array_payload_divergence :
    locatePayload ("[1, 2]".toList) = [] ∧
    locateClaimed ("[1, 2]".toList) = some ("[1, 2]".toList) := by
  decide

theorem indexOfSub_prefix (pat s : List Char) (h : pat.isPrefixOf s = true) :
    (indexOfSub pat s).isSome = true := by
  cases s with
  | nil => simp [indexOfSub, h]
  | cons c t => simp [indexOfSub, h]

theorem indexOfSub_isSome_of_decomp (pat a b : List Char) :
    (indexOfSub pat (a ++ (pat ++ b))).isSome = true := by
  induction a with
  | nil =>
    have hp : pat.isPrefixOf (pat ++ b) = true := by
      have hpp : pat <+: pat ++ b := List.prefix_append pat b
      exact List.isPrefixOf_iff_prefix.mpr hpp
    simpa using indexOfSub_prefix pat (pat ++ b) hp
  | cons c a ih =>
    simp only [List.cons_append]
    by_cases hp : pat.isPrefixOf (c :: (a ++ (pat ++ b))) = true
    · simp [indexOfSub, hp]
    · simp only [indexOfSub, hp, if_false, Bool.false_eq_true, if_neg]
      simpa using ih

theorem decomp_of_indexOfSub_isSome (pat : List Char) :
    ∀ s : List Char, (indexOfSub pat s).isSome = true →
      ∃ a b, s = a ++ (pat ++ b) := by
  intro s
  induction s with
  | nil =>
    intro h
    by_cases hp : pat.isPrefixOf ([] : List Char) = true
    · have hpe : pat = [] := by
        have hpp : pat <+: [] := by simpa using hp
        exact List.prefix_nil.mp hpp
      exact ⟨[], [], by simp [hpe]⟩
    · simp [indexOfSub, hp] at h
  | cons c t ih =>
    intro h
    by_cases hp : pat.isPrefixOf (c :: t) = true
    · have : pat <+: c :: t := by simpa using hp
      obtain ⟨r, hr⟩ := this
      exact ⟨[], r, by simp [← hr]⟩
    · simp only [indexOfSub, hp, Bool.false_eq_true, if_false, if_neg] at h
      have h2 : (indexOfSub pat t).isSome = true := by simpa using h
      obtain ⟨a, b, hab⟩ := ih h2
      exact ⟨c :: a, b, by simp [hab]⟩

theorem trimSpace_decomp (l : List Char) :
    ∃ u v, l = u ++ (trimSpace l ++ v) := by
  refine ⟨l.takeWhile isSpaceChar,
    ((l.dropWhile isSpaceChar).reverse.takeWhile isSpaceChar).reverse, ?_⟩
  conv_lhs => rw [← List.takeWhile_append_dropWhile isSpaceChar l]
  congr 1
  unfold trimSpace
  rw [← List.reverse_append, List.takeWhile_append_dropWhile,
    List.reverse_reverse]

theorem containsSub_trimSpace (s pat : List Char)
    (h : containsSub s pat = false) :
    containsSub (trimSpace s) pat = false := by
  by_contra hc
  have h1 : (indexOfSub pat (trimSpace s)).isSome = true := by
    rw [Option.isSome_iff_ne_none]
    intro hnone
    exact hc (by simp [containsSub, hnone])
  obtain ⟨a, b, hab⟩ := decomp_of_indexOfSub_isSome pat (trimSpace s) h1
  obtain ⟨u, v, huv⟩ := trimSpace_decomp s
  rw [hab] at huv
  have h2 : containsSub s pat = true := by
    rw [containsSub, huv]
    have := indexOfSub_isSome_of_decomp pat (u ++ a) (b ++ v)
    simpa [List.append_assoc] using this
  rw [h2] at h
  cases h

theorem not_mem_trimSpace (l : List Char) (c : Char) (h : c ∉ l) :
    c ∉ trimSpace l := by
  obtain ⟨u, v, huv⟩ := trimSpace_decomp l
  intro hc
  have : c ∈ u ++ (trimSpace l ++ v) :=
    List.mem_append.mpr (Or.inr (List.mem_append.mpr (Or.inl hc)))
  rw [← huv] at this
  exact h this

theorem mem_of_head_some (l : List Char) (c : Char) (h : l.head? = some c) :
    c ∈ l := by
  cases l with
  | nil => cases h
  | cons a t =>
    have : a = c := by simpa using h
    rw [← this]
    exact List.mem_cons_self _ _

/-- C9 counterexample: a fenced `json` block of brace-free prose is
extracted as a payload, and the task yields a zero-value verdict rather
than an extraction failure. -/
theorem extractor_finds_payload_without_braces :
    ('{' ∉ fencedProse) ∧ ('}' ∉ fencedProse) ∧
    locatePayload fencedProse = "ok".toList ∧
    analyzeResponseText fencedProse = .verdict CommitAnalysis.init := by
  decide

/-- C9 (amended): on text containing no `{`, no `}` and no `json`-labeled
fence, extraction finds nothing and the task fails with the extraction
error (and, the model being a pure function, the result is the same on
every evaluation). -/
theorem extractor_none_without_braces (raw : List Char)
    (h1 : '{' ∉ raw) (h2 : '}' ∉ raw)
    (h3 : containsSub raw fenceJson = false) :
    locatePayload raw = [] ∧ analyzeResponseText raw = .failure extractErrMsg := by
  have hfence : containsSub (trimSpace raw) fenceJson = false :=
    containsSub_trimSpace raw fenceJson h3
  have hob : '{' ∉ trimSpace raw := not_mem_trimSpace raw '{' h1
  have hcb : '}' ∉ trimSpace raw := not_mem_trimSpace raw '}' h2
  have hloc : locatePayload raw = [] := by
    simp only [locatePayload]
    cases hidx : indexOfSub fenceJson (trimSpace raw) with
    | some start =>
      rw [containsSub, hidx] at hfence
      cases hfence
    | none =>
      simp only [locateBrace]
      have hhead : ¬((trimSpace raw).head? = some '{' ∧
          (trimSpace raw).getLast? = some '}') := by
        rintro ⟨hh, _⟩
        exact hob (mem_of_head_some _ _ hh)
      rw [if_neg hhead]
      have hfind : List.findIdx? (fun c => c = '{') (trimSpace raw) = none := by
        rw [List.findIdx?_eq_none_iff]
        intro x hx
        by_contra hxe
        have : x = '{' := by simpa using hxe
        exact hob (this ▸ hx)
      rw [hfind]
  refine ⟨hloc, ?_⟩
  simp [analyzeResponseText, hloc]

/-- Witness for C9's amended theorem on a brace-free, fence-free reply. -/
theorem extractor_none_without_braces_witness :
    ('{' ∉ ("no structured data here".toList)) ∧
    ('}' ∉ ("no structured data here".toList)) ∧
    (containsSub ("no structured data here".toList) fenceJson = false) ∧
    (locatePayload ("no structured data here".toList) = [] ∧
      analyzeResponseText ("no structured data here".toList) =
        .failure extractErrMsg) :=
  ⟨by decide, by decide, by decide,
    extractor_none_without_braces ("no structured data here".toList)
      (by decide) (by decide) (by decide)⟩

/-- Witness for C3 at both an all-failed batch and a batch with a verdict. -/
theorem analyzeBug_error_iff_empty_witness :
    (analyzeBugInCommitsFromResults [errResult, errResult] = .error noCommitsMsg ↔
      collectAnalyses [errResult, errResult] = []) ∧
    (collectAnalyses [errResult, errResult] ≠ [] →
      ∃ b, analyzeBugInCommitsFromResults [errResult, errResult] = .ok b) :=
  analyzeBug_error_iff_empty [errResult, errResult]

theorem isDigit_not_space (c : Char) (h : c.isDigit = true) :
    isSpaceChar c = false := by
  by_contra hc
  rw [Bool.not_eq_false] at hc
  have hcs : c = ' ' ∨ c = '\t' ∨ c = '\n' ∨ c = '\x0b' ∨ c = '\x0c' ∨
      c = '\r' ∨ c = '\x85' ∨ c = '\xA0' := by
    simpa [isSpaceChar, or_assoc] using hc
  rcases hcs with rfl | rfl | rfl | rfl | rfl | rfl | rfl | rfl <;>
    exact absurd h (by decide)

theorem takeWhile_append_of_all (p : Char → Bool) (ds rest : List Char)
    (h1 : ∀ c ∈ ds, p c = true)
    (h2 : ∀ c, rest.head? = some c → p c = false) :
    (ds ++ rest).takeWhile p = ds := by
  induction ds with
  | nil =>
    simp only [List.nil_append]
    cases rest with
    | nil => rfl
    | cons r t =>
      have hr := h2 r rfl
      simp [List.takeWhile_cons, hr]
  | cons c t ih =>
    have hc := h1 c (List.mem_cons_self _ _)
    simp only [List.cons_append, List.takeWhile_cons, hc, if_true]
    rw [ih (fun x hx => h1 x (List.mem_cons_of_mem _ hx))]

theorem scanInt_digit_prefix (ds rest : List Char) (hne : ds ≠ [])
    (hd : ∀ c ∈ ds, c.isDigit = true)
    (hr : ∀ c, rest.head? = some c → c.isDigit = false) :
    scanInt (ds ++ rest) = some ((digitsToNat ds : Int)) := by
  cases ds with
  | nil => exact absurd rfl hne
  | cons c t =>
    have hcd := hd c (List.mem_cons_self _ _)
    have hcs : isSpaceChar c = false := isDigit_not_space c hcd
    have hm : ¬(c = '-') := by
      intro he
      rw [he] at hcd
      exact absurd hcd (by decide)
    have hp : ¬(c = '+') := by
      intro he
      rw [he] at hcd
      exact absurd hcd (by decide)
    have htake : ((c :: t) ++ rest).takeWhile Char.isDigit = c :: t :=
      takeWhile_append_of_all Char.isDigit (c :: t) rest hd hr
    simp only [List.cons_append] at htake
    have hsign : ¬(some c = some '-' ∨ some c = some '+') := by
      simp [hm, hp]
    have hm2 : ¬(some c = some '-') := by simp [hm]
    simp only [scanInt, List.cons_append, List.dropWhile_cons, hcs,
      Bool.false_eq_true, if_false, List.head?_cons]
    rw [if_neg hsign, htake, if_neg (List.cons_ne_nil c t), if_neg hm2]

/-- C6: pairs without a colon or with an unrecognized key leave the
verdict unchanged; `is_likely` is set iff the unquoted value is the
literal `true`; `confidence` takes the scanned integer when the value
scans and is left untouched (hence 0 from the zero value) when it does
not; and scanning reads exactly a maximal digit prefix. -/
theorem pair_parsing_semantics :
    (∀ (a : CommitAnalysis) (pair : List Char),
      splitFirstColon pair = none → applyPair a pair = a) ∧
    (∀ (a : CommitAnalysis) (pair k v : List Char),
      splitFirstColon pair = some (k, v) →
      cleanKey k ∉ recognizedKeys → applyPair a pair = a) ∧
    (∀ (a : CommitAnalysis) (pair k v : List Char),
      splitFirstColon pair = some (k, v) →
      cleanKey k = "is_likely".toList →
      ((applyPair a pair).isLikely = true ↔ cleanValue v = "true".toList)) ∧
    (∀ (a : CommitAnalysis) (pair k v : List Char),
      splitFirstColon pair = some (k, v) →
      cleanKey k = "confidence".toList →
      (applyPair a pair).confidence =
        (match scanInt (cleanValue v) with
          | some n => n
          | none => a.confidence)) ∧
    (∀ ds rest : List Char, ds ≠ [] →
      (∀ c ∈ ds, c.isDigit = true) →
      (∀ c, rest.head? = some c → c.isDigit = false) →
      scanInt (ds ++ rest) = some ((digitsToNat ds : Int))) := by
  refine ⟨?_, ?_, ?_, ?_, ?_⟩
  · intro a pair hsp
    simp [applyPair, hsp]
  · intro a pair k v hsp hk
    have h1 : ¬(cleanKey k = "commit_hash".toList) := fun he =>
      hk (he.symm ▸ (by decide : "commit_hash".toList ∈ recognizedKeys))
    have h2 : ¬(cleanKey k = "commit_message".toList) := fun he =>
      hk (he.symm ▸ (by decide : "commit_message".toList ∈ recognizedKeys))
    have h3 : ¬(cleanKey k = "author".toList) := fun he =>
      hk (he.symm ▸ (by decide : "author".toList ∈ recognizedKeys))
    have h4 : ¬(cleanKey k = "date".toList) := fun he =>
      hk (he.symm ▸ (by decide : "date".toList ∈ recognizedKeys))
    have h5 : ¬(cleanKey k = "explanation".toList) := fun he =>
      hk (he.symm ▸ (by decide : "explanation".toList ∈ recognizedKeys))
    have h6 : ¬(cleanKey k = "is_likely".toList) := fun he =>
      hk (he.symm ▸ (by decide : "is_likely".toList ∈ recognizedKeys))
    have h7 : ¬(cleanKey k = "confidence".toList) := fun he =>
      hk (he.symm ▸ (by decide : "confidence".toList ∈ recognizedKeys))
    simp only [applyPair, hsp]
    rw [if_neg h1, if_neg h2, if_neg h3, if_neg h4, if_neg h5, if_neg h6,
      if_neg h7]
  · intro a pair k v hsp hk
    simp only [applyPair, hsp]
    rw [hk]
    rw [if_neg (by decide), if_neg (by decide), if_neg (by decide),
      if_neg (by decide), if_neg (by decide), if_pos rfl]
    simp [beq_iff_eq]
  · intro a pair k v hsp hk
    simp only [applyPair, hsp]
    rw [hk]
    rw [if_neg (by decide), if_neg (by decide), if_neg (by decide),
      if_neg (by decide), if_neg (by decide), if_neg (by decide), if_pos rfl]
    cases hs : scanInt (cleanValue v) with
    | none => simp
    | some n => simp
  · intro ds rest h1 h2 h3
    exact scanInt_digit_prefix ds rest h1 h2 h3

/-- Witness for C6 on concrete pairs: no colon, unknown key, quoted
`"True"` not taken as true, non-numeric confidence left at the zero
value, and `42abc` scanning to 42. -/
theorem pair_parsing_semantics_witness :
    (splitFirstColon ("no colon here".toList) = none) ∧
    (applyPair CommitAnalysis.init ("no colon here".toList) =
      CommitAnalysis.init) ∧
    (applyPair CommitAnalysis.init ("\"zzz\": 1".toList) =
      CommitAnalysis.init) ∧
    ((applyPair CommitAnalysis.init
        ("\"is_likely\": \"True\"".toList)).isLikely = true ↔
      cleanValue (" \"True\"".toList) = "true".toList) ∧
    ((applyPair CommitAnalysis.init
        ("\"confidence\": high".toList)).confidence =
      (match scanInt (cleanValue (" high".toList)) with
        | some n => n
        | none => CommitAnalysis.init.confidence)) ∧
    (scanInt ("42abc".toList) = some ((digitsToNat ("42".toList) : Int))) :=
  ⟨by decide,
    pair_parsing_semantics.1 CommitAnalysis.init ("no colon here".toList)
      (by decide),
    pair_parsing_semantics.2.1 CommitAnalysis.init ("\"zzz\": 1".toList)
      ("\"zzz\"".toList) (" 1".toList) (by decide) (by decide),
    pair_parsing_semantics.2.2.1 CommitAnalysis.init
      ("\"is_likely\": \"True\"".toList) ("\"is_likely\"".toList)
      (" \"True\"".toList) (by decide) (by decide),
    pair_parsing_semantics.2.2.2.1 CommitAnalysis.init
      ("\"confidence\": high".toList) ("\"confidence\"".toList)
      (" high".toList) (by decide) (by decide),
    pair_parsing_semantics.2.2.2.2 ("42".toList) ("abc".toList)
      (by decide) (by decide) (by decide)⟩

/-- C7 evidence: the parser performs no clamping, so an oracle-supplied
confidence of 150 is stored as 150, outside the documented 0-100 range
(the `Confidence int // 0-100` field comment), though nothing crashes. -/
theorem confidence_not_clamped :
    (parseAnalysis overConfidencePayload).isLikely = true ∧
    (parseAnalysis overConfidencePayload).confidence = 150 ∧
    ¬((parseAnalysis overConfidencePayload).confidence ≤ 100) := by
  decide

theorem scanStep_prev_irrel (c : Char) (p₁ p₂ : Option Char) (i : Bool)
    (d : Int) (h1 : p₁ ≠ some '\\') (h2 : p₂ ≠ some '\\') :
    scanStep ⟨p₁, i, d⟩ c = scanStep ⟨p₂, i, d⟩ c := by
  unfold scanStep
  by_cases hq : c = '"'
  · simp [hq, h1, h2]
  · simp [hq]

theorem chunk_scan_prev_irrel (ch : List Char) (p₁ p₂ : Option Char)
    (i : Bool) (d : Int) (h1 : p₁ ≠ some '\\') (h2 : p₂ ≠ some '\\') :
    noTopComma ⟨p₁, i, d⟩ ch = noTopComma ⟨p₂, i, d⟩ ch ∧
    (scanList ⟨p₁, i, d⟩ ch).inQ = (scanList ⟨p₂, i, d⟩ ch).inQ ∧
    (scanList ⟨p₁, i, d⟩ ch).depth = (scanList ⟨p₂, i, d⟩ ch).depth := by
  cases ch with
  | nil => exact ⟨rfl, rfl, rfl⟩
  | cons c rest =>
    have hs := scanStep_prev_irrel c p₁ p₂ i d h1 h2
    refine ⟨?_, ?_, ?_⟩
    · simp only [noTopComma, hs]
    · simp only [scanList, List.foldl_cons, hs]
    · simp only [scanList, List.foldl_cons, hs]

theorem foldl_splitStep_safe (ch : List Char) :
    ∀ (sc : ScanSt) (cur : List Char) (ps : List (List Char)),
      noTopComma sc ch = true →
      List.foldl splitStep ⟨sc, cur, ps⟩ ch = ⟨scanList sc ch, cur ++ ch, ps⟩ := by
  induction ch with
  | nil =>
    intro sc cur ps _
    simp [scanList]
  | cons c rest ih =>
    intro sc cur ps h
    have hcond : ¬(c = ',' ∧ sc.inQ = false ∧ sc.depth = 0) := by
      intro hc
      simp only [noTopComma, if_pos hc] at h
      exact Bool.noConfusion h
    have h2 : noTopComma (scanStep sc c) rest = true := by
      simpa only [noTopComma, if_neg hcond] using h
    simp only [List.foldl_cons, splitStep, if_neg hcond]
    rw [ih (scanStep sc c) (cur ++ [c]) ps h2]
    simp [scanList, List.foldl_cons, List.append_assoc]

theorem trimSpace_space_cons (c : Char) (l : List Char)
    (h : isSpaceChar c = true) : trimSpace (c :: l) = trimSpace l := by
  simp [trimSpace, List.dropWhile_cons, h]

theorem splitStep_comma (st : SplitSt) (h1 : st.scan.inQ = false)
    (h2 : st.scan.depth = 0) :
    splitStep st ',' = ⟨scanStep st.scan ',', [], st.pairs ++ [trimSpace st.cur]⟩ := by
  unfold splitStep
  rw [if_pos ⟨rfl, h1, h2⟩]

theorem splitStep_space (st : SplitSt) :
    splitStep st ' ' = ⟨scanStep st.scan ' ', st.cur ++ [' '], st.pairs⟩ := by
  unfold splitStep
  rw [if_neg]
  intro hc
  exact absurd hc.1 (by decide)

theorem scanStep_comma (s : ScanSt) :
    scanStep s ',' = ⟨some ',', s.inQ, s.depth⟩ := rfl

theorem scanStep_space (s : ScanSt) :
    scanStep s ' ' = ⟨some ' ', s.inQ, s.depth⟩ := rfl

theorem chunkOK_parts (ch : List Char) (sc : ScanSt)
    (hq : sc.inQ = false) (hd : sc.depth = 0) (hp : sc.prev ≠ some '\\')
    (h : chunkOK initScan ch = true) :
    noTopComma sc ch = true ∧ (scanList sc ch).inQ = false ∧
      (scanList sc ch).depth = 0 := by
  obtain ⟨p, i, d⟩ := sc
  simp only at hq hd hp
  subst hq
  subst hd
  have hirr := chunk_scan_prev_irrel ch p none false 0 hp (by simp)
  have h0 : noTopComma initScan ch = true ∧
      (scanList initScan ch).inQ = false ∧
      (scanList initScan ch).depth = 0 := by
    have hok := h
    simp only [chunkOK, Bool.and_eq_true, Bool.not_eq_true', beq_iff_eq]
      at hok
    exact ⟨hok.1.1, hok.1.2, hok.2⟩
  exact ⟨hirr.1.trans h0.1, hirr.2.1.trans h0.2.1, hirr.2.2.trans h0.2.2⟩

theorem foldl_splitStep_joins (rest : List (List Char)) :
    ∀ (ch : List Char) (sc : ScanSt) (cur : List Char)
      (ps : List (List Char)),
      sc.inQ = false → sc.depth = 0 → sc.prev ≠ some '\\' →
      ch ≠ [] → chunkOK initScan ch = true →
      (∀ x ∈ rest, x ≠ [] ∧ chunkOK initScan x = true) →
      ((List.foldl splitStep ⟨sc, cur, ps⟩ (joinPairs (ch :: rest))).pairs ++
        (if (List.foldl splitStep ⟨sc, cur, ps⟩
            (joinPairs (ch :: rest))).cur = [] then []
          else [trimSpace (List.foldl splitStep ⟨sc, cur, ps⟩
            (joinPairs (ch :: rest))).cur])) =
      ps ++ (trimSpace (cur ++ ch) :: rest.map trimSpace) := by
  induction rest with
  | nil =>
    intro ch sc cur ps hq hd hp hne hok _
    obtain ⟨hnt, _, _⟩ := chunkOK_parts ch sc hq hd hp hok
    have hrun := foldl_splitStep_safe ch sc cur ps hnt
    have hcur : cur ++ ch ≠ [] := by
      intro hemp
      exact hne (List.append_eq_nil.mp hemp).2
    simp only [joinPairs, hrun, if_neg hcur]
    rfl
  | cons ch2 rest2 ih =>
    intro ch sc cur ps hq hd hp hne hok hrest
    obtain ⟨hnt, hq1, hd1⟩ := chunkOK_parts ch sc hq hd hp hok
    have hjp : joinPairs (ch :: ch2 :: rest2) =
        ch ++ (',' :: ' ' :: joinPairs (ch2 :: rest2)) := rfl
    rw [hjp, List.foldl_append]
    rw [foldl_splitStep_safe ch sc cur ps hnt]
    rw [List.foldl_cons, splitStep_comma ⟨scanList sc ch, cur ++ ch, ps⟩ hq1 hd1]
    rw [List.foldl_cons, splitStep_space _]
    rw [scanStep_comma, scanStep_space]
    rw [hq1, hd1]
    simp only [List.nil_append]
    have hstep := ih ch2 ⟨some ' ', false, 0⟩ [' ']
      (ps ++ [trimSpace (cur ++ ch)]) rfl rfl (by simp)
      (hrest ch2 (List.mem_cons_self _ _)).1
      (hrest ch2 (List.mem_cons_self _ _)).2
      (fun x hx => hrest x (List.mem_cons_of_mem _ hx))
    rw [hstep]
    simp only [List.singleton_append]
    rw [trimSpace_space_cons ' ' ch2 (by decide)]
    simp

/-- C8: `splitJSONPairs` splits only at commas outside quoted strings and
at brace/bracket depth zero: joining comma-safe `key: value` chunks with
top-level `", "` separators splits back into exactly those chunks
(trimmed), so a comma inside a quoted value or a nested `{}`/`[]`
structure never splits a pair in two. -/
theorem splitJSONPairs_safe_chunks (chunks : List (List Char))
    (h : ∀ ch ∈ chunks, ch ≠ [] ∧ chunkOK initScan ch = true) :
    splitJSONPairs (joinPairs chunks) = chunks.map trimSpace := by
  cases chunks with
  | nil => rfl
  | cons ch rest =>
    have hch := h ch (List.mem_cons_self _ _)
    have hmain := foldl_splitStep_joins rest ch initScan [] [] rfl rfl
      (by simp [initScan]) hch.1 hch.2
      (fun x hx => h x (List.mem_cons_of_mem _ hx))
    simpa [splitJSONPairs] using hmain

/-- Witness for C8 on pairs with a comma inside a quoted value and commas
inside nested `{}` and `[]`. -/
theorem splitJSONPairs_safe_chunks_witness :
    (∀ ch ∈ [chunkExplanation, chunkNested, chunkAuthor],
      ch ≠ [] ∧ chunkOK initScan ch = true) ∧
    splitJSONPairs (joinPairs [chunkExplanation, chunkNested, chunkAuthor]) =
      [chunkExplanation, chunkNested, chunkAuthor].map trimSpace :=
  ⟨by decide,
    splitJSONPairs_safe_chunks [chunkExplanation, chunkNested, chunkAuthor]
      (by decide)⟩

/-- Multiset invariant of the fan-out: outcomes drained, buffered, and
still pending always amount to exactly one outcome per dispatched commit. -/
theorem coord_reachable_perm (oracle : List Char → CommitAnalysisResult)
    (commits : List (List Char)) (s : CoordState)
    (h : Relation.ReflTransGen (CoordStep oracle) ⟨commits, [], []⟩ s) :
    (s.drained ++ s.buffer ++ s.pending.map oracle).Perm (commits.map oracle) := by
  induction h with
  | refl => simp
  | tail hR hstep ih =>
    refine List.Perm.trans ?_ ih
    cases hstep with
    | complete pre post buf dr c =>
      simp only [List.map_append, List.map_cons]
      rw [← Multiset.coe_eq_coe]
      simp only [← Multiset.coe_add, ← Multiset.cons_coe, ← Multiset.singleton_add]
      abel
    | drain pend r buf dr =>
      simp only []
      rw [← Multiset.coe_eq_coe]
      simp only [← Multiset.coe_add, ← Multiset.cons_coe, ← Multiset.singleton_add]
      abel

/-- C4: in any complete run of the fan-out (all `N` outcomes drained), the
drained results are exactly a permutation of one outcome per dispatched
commit — none dropped, none duplicated, all observed before selection;
and `N = 0` yields the "no commits" error from the empty drain. -/
theorem coordinator_exact_outcomes (oracle : List Char → CommitAnalysisResult)
    (commits : List (List Char)) (s : CoordState)
    (h : Relation.ReflTransGen (CoordStep oracle) ⟨commits, [], []⟩ s)
    (hdone : s.drained.length = commits.length) :
    s.drained.Perm (commits.map oracle) ∧ s.pending = [] ∧ s.buffer = [] ∧
      (commits = [] →
        analyzeBugInCommitsFromResults s.drained = .error noCommitsMsg) := by
  have hperm := coord_reachable_perm oracle commits s h
  have hlen := hperm.length_eq
  simp only [List.length_append, List.length_map] at hlen
  have hbl : s.buffer.length = 0 := by omega
  have hpl : s.pending.length = 0 := by omega
  have hb : s.buffer = [] := List.length_eq_zero.mp hbl
  have hp : s.pending = [] := List.length_eq_zero.mp hpl
  have hperm2 : s.drained.Perm (commits.map oracle) := by
    simpa [hb, hp] using hperm
  refine ⟨hperm2, hp, hb, ?_⟩
  intro hc
  have hdr : s.drained = [] := by
    have hnil := hperm2
    rw [hc] at hnil
    simp only [List.map_nil] at hnil
    exact hnil.eq_nil
  rw [hdr]
  rfl

/-- Witness for C4: one commit, one completion, one drain. -/
theorem coordinator_exact_outcomes_witness :
    ((⟨[], [], [errResult]⟩ : CoordState).drained.length =
      [("a".toList)].length) ∧
    ((⟨[], [], [errResult]⟩ : CoordState).drained.Perm
        ([("a".toList)].map (fun _ => errResult)) ∧
      (⟨[], [], [errResult]⟩ : CoordState).pending = [] ∧
      (⟨[], [], [errResult]⟩ : CoordState).buffer = [] ∧
      ([("a".toList)] = [] →
        analyzeBugInCommitsFromResults
          (⟨[], [], [errResult]⟩ : CoordState).drained =
            .error noCommitsMsg)) :=
  ⟨rfl,
    coordinator_exact_outcomes (fun _ => errResult) [("a".toList)]
      ⟨[], [], [errResult]⟩
      (Relation.ReflTransGen.tail
        (Relation.ReflTransGen.single
          (CoordStep.complete [] [] [] [] ("a".toList)))
        (CoordStep.drain [] errResult [] []))
      rfl⟩

end Jarvis
